import Mathlib

/-!
# Sieve of Pritchard on a wheel-30 compressed bitmap

A shallow embedding of `wheel_sieve_optimized.cpp` (32-bit indices) and
`wheel_sieve_bitmap.cpp` (64-bit indices), followed by theorems about the
embedded functions.

Modelling conventions.

* The byte array `char *bitmap` is a function from byte index to byte value.
  Bytes are naturals; every write performed by the program stores a value
  below 256, and a 64-bit load reads each byte modulo 256.
* Unsigned machine arithmetic is arithmetic on `Nat` reduced modulo
  `2 ^ bits`, where `bits` is 32 or 64 according to the source file.
* `cbrt(length)` converted to an unsigned integer is the integer part of the
  real cube root.
* Loops with a loop counter are folds over the counter range; `while` loops
  carry explicit fuel.
-/

namespace WheelSieve

/-! ## Index width of the two source files -/

/-- The two source files: `w32` is `wheel_sieve_optimized.cpp`, whose indices
are `uint32_t`; `w64` is `wheel_sieve_bitmap.cpp`, whose indices are
`uint64_t`. -/
inductive Width where
  | w32 : Width
  | w64 : Width
  deriving DecidableEq, Repr

/-- Number of bits of the index type. -/
def Width.bits : Width → Nat
  | Width.w32 => 32
  | Width.w64 => 64

/-- Reduction of an unsigned result to the index type. -/
def wrap (wd : Width) (x : Nat) : Nat := x % 2 ^ wd.bits

/-! ## Constants for wheel 3 compression -/

/-- Table `mod30_to_bit8`. -/
def mod30_to_bit8 (i : Nat) : Int :=
  [-1,0,0,0,0,0,0,1,1,1,1,2,2,3,3,3,3,4,4,5,5,5,5,6,6,6,6,6,6,7].getD i 0

/-- Table `bit64toval240`. -/
def bit64toval240 (r : Nat) : Nat :=
  [1,7,11,13,17,19,23,29,31,37,41,43,47,49,53,59,61,67,71,73,77,79,83,89,91,97,
   101,103,107,109,113,119,121,127,131,133,137,139,143,149,151,157,161,163,167,
   169,173,179,181,187,191,193,197,199,203,209,211,217,221,223,227,229,233,239].getD r 0

/-- Table `diff`: the gaps between consecutive residues coprime to 30. -/
def diff (i : Nat) : Nat := [6,4,2,4,2,4,6,2].getD i 0

/-! ## The byte store -/

/-- The store `char *bitmap`: byte index to byte value. -/
abbrev Bitmap := Nat → Nat

/-- The zero-initialised store returned by `calloc`. -/
def calloc : Bitmap := fun _ => 0

/-- Assignment `bitmap[i] = v`. -/
def setByte (b : Bitmap) (i v : Nat) : Bitmap := fun j => if j = i then v else b j

/-- Statement `bitmap[i] &= ~(1 << j)`, keeping the low eight bits. -/
def clearBit (b : Bitmap) (i j : Nat) : Bitmap :=
  setByte b i (b i &&& (255 ^^^ (1 <<< j)))

/-- Macro `marked(x,bitset)`: `bitset[x / 30] & 1 << ((x % 30) * 8 / 30)`. -/
def marked (x : Nat) (bitset : Bitmap) : Bool :=
  (bitset (x / 30) &&& (1 <<< ((x % 30) * 8 / 30))) != 0

/-- Macro `unmark(x,bitset)`: `bitset[x / 30] &= ~(1 << ((x % 30) * 8 / 30))`. -/
def unmark (x : Nat) (bitset : Bitmap) : Bitmap :=
  clearBit bitset (x / 30) ((x % 30) * 8 / 30)

/-- The load `bitmap64[k]` of a little-endian 64-bit word. -/
def loadWord (b : Bitmap) (k : Nat) : Nat :=
  (List.range 8).foldl (fun acc j => acc + (b (8 * k + j) % 256) <<< (8 * j)) 0

/-- The library call `memcpy(bitmap+dst, bitmap+src, n)` on non-overlapping
ranges. -/
def memcpy (b : Bitmap) (dst src n : Nat) : Bitmap :=
  fun i => if dst ≤ i ∧ i < dst + n then b (src + (i - dst)) else b i

/-! ## Bit scanning -/

/-- Auxiliary loop of `ctzll`. -/
def ctzLoop : Nat → Nat → Nat
  | 0, _ => 0
  | fuel + 1, x => if x % 2 = 1 then 0 else 1 + ctzLoop fuel (x / 2)

/-- Builtin `__builtin_ctzll` on a non-zero 64-bit value. -/
def ctzll (x : Nat) : Nat := ctzLoop 64 x

/-- Builtin `__builtin_popcountll` on a 64-bit value. -/
def popcountll (x : Nat) : Nat :=
  (List.range 64).foldl (fun acc i => acc + (x >>> i) % 2) 0

/-- The loop
`while (bitset != 0) { t = bitset & -bitset; r = ctz(bitset); body(r); bitset ^= t; }`
with explicit fuel. -/
def whileBits {σ : Type} (body : Nat → σ → σ) : Nat → Nat → σ → σ
  | 0, _, s => s
  | fuel + 1, bitset, s =>
    if bitset = 0 then s
    else
      let t := bitset &&& ((2 ^ 64 - bitset) % 2 ^ 64)
      let r := ctzll bitset
      whileBits body fuel (bitset ^^^ t) (body r s)

/-- A loop `for (k = lo; k < hi; k++) body(k)`. -/
def forRange {σ : Type} (lo hi : Nat) (body : Nat → σ → σ) (s : σ) : σ :=
  (List.range' lo (hi - lo)).foldl (fun st k => body k st) s

/-- The mask `0xFFFFFFFFFFFFFFFF >> (63 - bit64)`. -/
def lowMask (bit64 : Nat) : Nat := (2 ^ 64 - 1) >>> (63 - bit64)

/-- The mask `0xFFFFFFFFFFFFFFFF << (bit64mid + 1)` as a 64-bit value. -/
def highMask (bit64mid : Nat) : Nat := ((2 ^ 64 - 1) <<< (bit64mid + 1)) % 2 ^ 64

/-! ## Output helpers -/

/-- Function `print`: the values written, in order, and the returned count.
The state of the scan is `(pos, base, output)`. -/
def print (bitmap : Bitmap) (bitmapsize : Nat) : Nat × List Nat :=
  let st := forRange 0 bitmapsize
    (fun k (st : Nat × Nat × List Nat) =>
      let st1 := whileBits
        (fun r (s : Nat × Nat × List Nat) =>
          let x := s.2.1 + bit64toval240 r
          (s.1 + 1, s.2.1, s.2.2 ++ [x]))
        64 (loadWord bitmap k) st
      (st1.1, st1.2.1 + 240, st1.2.2))
    (0, 0, [])
  (st.1, st.2.2)

/-- Function `count`: number of set bits in the first `size / 8` words. -/
def count (bitmap : Bitmap) (size : Nat) : Nat :=
  forRange 0 (size / 8) (fun k sum => sum + popcountll (loadWord bitmap k)) 0

/-! ## Extend -/

/-- Function `Extend`: returns the store and the new value of `length`. -/
def Extend (bitmap : Bitmap) (length n : Nat) : Bitmap × Nat :=
  let st := forRange 1 (n / length)
    (fun _ (st : Bitmap × Nat) =>
      let offset := st.2 + length / 30
      (memcpy st.1 offset 0 (length / 30), offset))
    (bitmap, 0)
  let offset := st.2 + length / 30
  let rem := n % length
  let b1 := memcpy st.1 offset 0 (rem / 30)
  let offset := offset + rem / 30
  let rem30 := rem % 30
  let b2 :=
    if rem30 > 0 then
      setByte b1 offset (b1 (rem / 30) &&& (255 >>> (7 - mod30_to_bit8 rem30).toNat))
    else b1
  (b2, n)

/-! ## Delete -/

/-- Integer part of the cube root, by upward search. -/
def cbrtLoop : Nat → Nat → Nat → Nat
  | 0, _, r => r
  | fuel + 1, n, r => if (r + 1) ^ 3 ≤ n then cbrtLoop fuel n (r + 1) else r

/-- The value `(uint) cbrt(length)`. -/
def cbrt (n : Nat) : Nat := cbrtLoop n n 0

/-- Table entry `pr240On30[r]`, a `uint32_t` in both files. -/
def pr240On30 (wd : Width) (p r : Nat) : Nat :=
  (wrap wd (p * bit64toval240 r) / 30) % 2 ^ 32

/-- Table entry `pr240bit8[r]`; in `wheel_sieve_bitmap.cpp` the table holds
the mask `~(1 << pr240bit8[r])` of the same bit. -/
def pr240bit8 (wd : Width) (p r : Nat) : Nat :=
  wrap wd (p * bit64toval240 r) % 30 * 8 / 30

/-- The clamp `x = a / p; if (x % 2 == 0) x -= 1;` in unsigned arithmetic. -/
def oddClamp (wd : Width) (x : Nat) : Nat :=
  if x % 2 = 0 then wrap wd (x + 2 ^ wd.bits - 1) else x

/-- The index `x%240/30*8 + mod30_to_bit8[x%240%30]` as an unsigned value. -/
def bitIndex (wd : Width) (x : Nat) : Nat :=
  ((((x % 240 / 30 * 8 : Nat) : Int) + mod30_to_bit8 (x % 240 % 30)) % 2 ^ wd.bits).toNat

/-- Packed stack entry: `(cOn30 << 3) | cbit8` in the 32-bit file,
`(cOn30 << 8) | cbit8mask` in the 64-bit file. -/
def pack : Width → Nat → Nat → Nat
  | Width.w32, cOn30, cbit8 => ((cOn30 <<< 3) ||| cbit8) % 2 ^ 32
  | Width.w64, cOn30, cbit8 => ((cOn30 <<< 8) ||| (255 ^^^ (1 <<< cbit8))) % 2 ^ 64

/-- Replay of one stack entry: `bitmap[t >> 3] &= ~(1 << (t & 0x7))` in the
32-bit file, `bitmap[t >> 8] &= (t & 0xFF)` in the 64-bit file. -/
def replay : Width → Bitmap → Nat → Bitmap
  | Width.w32, b, t => clearBit b (t >>> 3) (t &&& 7)
  | Width.w64, b, t => setByte b (t >>> 8) (b (t >>> 8) &&& (t &&& 255))

/-- Scan of one loaded word with immediate unmarking:
`cOn30 = baseon30 + pr240On30[r]; bitmap[cOn30] &= ~(1 << pr240bit8[r])`. -/
def scanUnmark (wd : Width) (p baseon30 bitset : Nat) (bitmap : Bitmap) : Bitmap :=
  whileBits
    (fun r b => clearBit b (wrap wd (baseon30 + pr240On30 wd p r)) (pr240bit8 wd p r))
    64 bitset bitmap

/-- Scan of one loaded word pushing the packed composites on `cstack`
(the head of the list is the top of the stack). -/
def scanPush (wd : Width) (p baseon30 bitset : Nat) (cstack : List Nat) : List Nat :=
  whileBits
    (fun r st => pack wd (wrap wd (baseon30 + pr240On30 wd p r)) (pr240bit8 wd p r) :: st)
    64 bitset cstack

/-- Function `Delete`. -/
def Delete (wd : Width) (bitmap : Bitmap) (p length : Nat) : Bitmap :=
  let lengthOnp := oddClamp wd (length / p)
  let kmin := p / 240
  let kmax := lengthOnp / 240
  let bit64 := bitIndex wd lengthOnp
  let baseon30 := wrap wd (kmin * p * 8)
  let lengthto1on3 := cbrt length
  if p > lengthto1on3 then
    let st := forRange kmin kmax
      (fun k (st : Bitmap × Nat) =>
        (scanUnmark wd p st.2 (loadWord st.1 k) st.1, wrap wd (st.2 + p * 8)))
      (bitmap, baseon30)
    let b1 := scanUnmark wd p st.2 (loadWord st.1 kmax &&& lowMask bit64) st.1
    unmark p b1
  else
    let lengthOnp2 := oddClamp wd (lengthOnp / p)
    let kmid := lengthOnp2 / 240
    let bit64mid := bitIndex wd lengthOnp2
    -- stack composites c <= lengthOnp2
    let st := forRange kmin kmid
      (fun k (st : List Nat × Nat) =>
        (scanPush wd p st.2 (loadWord bitmap k) st.1, wrap wd (st.2 + p * 8)))
      ([], baseon30)
    let cstack := scanPush wd p st.2 (loadWord bitmap kmid &&& lowMask bit64mid) st.1
    let baseon30 := st.2
    -- process composites c > lengthOnp2
    let bitset := if bit64mid = 63 then 0 else loadWord bitmap kmid &&& highMask bit64mid
    let res : Bitmap × Nat × Nat :=
      if kmax > kmid then
        let b1 := scanUnmark wd p baseon30 bitset bitmap
        let st2 := forRange (kmid + 1) kmax
          (fun k (st : Bitmap × Nat) =>
            (scanUnmark wd p st.2 (loadWord st.1 k) st.1, wrap wd (st.2 + p * 8)))
          (b1, wrap wd (baseon30 + p * 8))
        (st2.1, st2.2, loadWord st2.1 kmax &&& lowMask bit64)
      else
        (bitmap, baseon30, bitset &&& (loadWord bitmap kmid &&& lowMask bit64))
    let b2 := scanUnmark wd p res.2.1 res.2.2 res.1
    -- process c <= lengthOnp2 in reverse order
    let b3 := cstack.foldl (replay wd) b2
    unmark p b3

/-! ## Sift -/

/-- The variables of the main loop of `Sift`, with the output written so far. -/
structure SiftState where
  bitmap : Bitmap
  length : Nat
  p : Nat
  p_index : Nat
  p2 : Nat
  k : Nat
  out : List Nat

/-- The search `while (1) { p += diff[p_index++ % 8]; if marked(p,bitmap) break; }`
with explicit fuel; `none` when the fuel runs out. -/
def nextMarked (bitmap : Bitmap) : Nat → Nat → Nat → Option (Nat × Nat)
  | 0, _, _ => none
  | fuel + 1, p, p_index =>
    let p1 := p + diff (p_index % 8)
    let i1 := (p_index + 1) % 2 ^ 32
    if marked p1 bitmap then some (p1, i1) else nextMarked bitmap fuel p1 i1

/-- State of `Sift` on entry to the main loop (for `N >= 7`). -/
def siftInit (N : Nat) (printPrimes : Bool) : SiftState :=
  let bitmap := setByte calloc 0 255
  let out := if printPrimes then [2, 3, 5] else []
  if N < 30 then
    { bitmap := setByte bitmap 0 (bitmap 0 &&& (255 >>> (7 - mod30_to_bit8 N).toNat)),
      length := N, p := 7, p_index := 1, p2 := 49, k := 3, out := out }
  else
    { bitmap := bitmap, length := 30, p := 7, p_index := 1, p2 := 49, k := 3, out := out }

/-- One iteration of the main loop of `Sift` (entered with `p2 <= N`). -/
def siftStep (wd : Width) (N : Nat) (printPrimes : Bool) (s : SiftState) :
    Option SiftState :=
  let ext : Bitmap × Nat :=
    if s.length < N then
      let e := Extend s.bitmap s.length (min (wrap wd (s.p * s.length)) N)
      if e.2 = N then (unmark 1 e.1, e.2) else e
    else (s.bitmap, s.length)
  let bitmap := Delete wd ext.1 s.p ext.2
  let out := if printPrimes then s.out ++ [s.p] else s.out
  match nextMarked bitmap N s.p s.p_index with
  | none => none
  | some (p1, i1) =>
    some { bitmap := bitmap, length := ext.2, p := p1, p_index := i1,
           p2 := wrap wd (p1 * p1), k := s.k + 1, out := out }

/-- The main loop `while (p2 <= N) { ... }` with explicit fuel. -/
def siftLoop (wd : Width) (N : Nat) (printPrimes : Bool) :
    Nat → SiftState → Option SiftState
  | 0, _ => none
  | fuel + 1, s =>
    if s.p2 ≤ N then
      match siftStep wd N printPrimes s with
      | none => none
      | some s1 => siftLoop wd N printPrimes fuel s1
    else some s

/-- The store handed to the output helper: after the main loop, the last
`Extend` and `unmark(1,bitmap)`. -/
def siftFinal (N : Nat) (s : SiftState) : Bitmap :=
  let ext : Bitmap × Nat := if s.length < N then Extend s.bitmap s.length N
    else (s.bitmap, s.length)
  unmark 1 ext.1

/-- Function `Sift`: the returned count and the sequence of printed values;
`none` when a loop does not terminate within `N` steps. -/
def Sift (wd : Width) (N : Nat) (printPrimes : Bool) : Option (Nat × List Nat) :=
  let bitmapsize := ((N / 30 + 1 - 1) / 8 + 1) * 8
  let out1 := if printPrimes then [2] else []
  let k1 := 1
  let k2 := if N ≥ 3 then k1 + 1 else k1
  let out2 := if N ≥ 3 ∧ printPrimes then out1 ++ [3] else out1
  let k3 := if N ≥ 5 then k2 + 1 else k2
  let out3 := if N ≥ 5 ∧ printPrimes then out2 ++ [5] else out2
  if N < 7 then some (k3, out3)
  else
    match siftLoop wd N printPrimes N (siftInit N printPrimes) with
    | none => none
    | some s =>
      let bitmap := siftFinal N s
      if printPrimes then
        let r := print bitmap (bitmapsize / 8)
        some (s.k + r.1, s.out ++ r.2)
      else
        some (s.k + count bitmap bitmapsize, s.out)

/-! ## Definitions used in the statements and in the proofs -/

/-- Position of an integer inside its 64-bit word. -/
def wordBit (x : Nat) : Nat := x % 240 / 30 * 8 + (x % 30) * 8 / 30

/-- Indices of the set bits of a 64-bit value, in increasing order. -/
def setBits (x : Nat) : List Nat := (List.range 64).filter (fun r => x.testBit r)

/-- Index of the last residue coprime to 30 that is at most `y`, for odd `y`. -/
def lastBit (y : Nat) : Nat := y % 240 / 30 * 8 + (mod30_to_bit8 (y % 240 % 30)).toNat

/-- Unmarking of a list of integers, in order. -/
def unmarkAll (cs : List Nat) (b : Bitmap) : Bitmap := cs.foldl (fun st c => unmark c st) b

/-- The part of `Delete` that unmarks immediately in the staged regime
(quotients above `maxfOnp`), as an expression of its own. -/
def zone2 (wd : Width) (p : Nat) (b : Bitmap) (maxf maxfOnp baseon30 : Nat) : Bitmap :=
  let kmax := maxf / 240
  let bit64 := bitIndex wd maxf
  let kmid := maxfOnp / 240
  let bit64mid := bitIndex wd maxfOnp
  let bitset := if bit64mid = 63 then 0 else loadWord b kmid &&& highMask bit64mid
  let res : Bitmap × Nat × Nat :=
    if kmax > kmid then
      let b1 := scanUnmark wd p baseon30 bitset b
      let st2 := forRange (kmid + 1) kmax
        (fun k (st : Bitmap × Nat) =>
          (scanUnmark wd p st.2 (loadWord st.1 k) st.1, wrap wd (st.2 + p * 8)))
        (b1, wrap wd (baseon30 + p * 8))
      (st2.1, st2.2, loadWord st2.1 kmax &&& lowMask bit64)
    else
      (b, baseon30, bitset &&& (loadWord b kmid &&& lowMask bit64))
  scanUnmark wd p res.2.1 res.2.2 res.1

/-- The number of bytes `Sift` allocates, `((N/30+1 - 1)/8+1)*8`. -/
def bitmapsize (N : Nat) : Nat := ((N / 30 + 1 - 1) / 8 + 1) * 8

/-- The size of the data model for a store materialised up to `length`, in
the words of the specification: `ceil(ceil(length/30)/8)*8` bytes. -/
def storeSizeSpec (length : Nat) : Nat := (((length + 29) / 30 + 7) / 8) * 8

/-- The staging stack `cstack` at the end of the two push loops of the staged
regime of `Delete` (the head of the list is the entry pushed last). -/
def DeleteStack (wd : Width) (bitmap : Bitmap) (p length : Nat) : List Nat :=
  let lengthOnp := oddClamp wd (length / p)
  let kmin := p / 240
  let baseon30 := wrap wd (kmin * p * 8)
  let lengthOnp2 := oddClamp wd (lengthOnp / p)
  let kmid := lengthOnp2 / 240
  let bit64mid := bitIndex wd lengthOnp2
  let st := forRange kmin kmid
    (fun k (st : List Nat × Nat) =>
      (scanPush wd p st.2 (loadWord bitmap k) st.1, wrap wd (st.2 + p * 8)))
    ([], baseon30)
  scanPush wd p st.2 (loadWord bitmap kmid &&& lowMask bit64mid) st.1

/-- The capacity `((lengthOnp-1)/30+1)*8` of the array allocated for `cstack`. -/
def stackCapacity (wd : Width) (p length : Nat) : Nat :=
  ((oddClamp wd (length / p) - 1) / 30 + 1) * 8

/-- The store and the value of `length` after the statement
`if (length < N) { Extend(...); if (length == N) unmark(1,bitmap); }`
of the main loop, with which `Delete` is called. -/
def siftExtend (wd : Width) (N : Nat) (s : SiftState) : Bitmap × Nat :=
  if s.length < N then
    let e := Extend s.bitmap s.length (min (wrap wd (s.p * s.length)) N)
    if e.2 = N then (unmark 1 e.1, e.2) else e
  else (s.bitmap, s.length)

/-- The calls of `Delete` made by the main loop, in order: the prime `p`, the
value of `length`, and whether the call takes the staged regime
(`p <= cbrt(length)`). -/
def siftCalls (wd : Width) (N : Nat) (printPrimes : Bool) :
    Nat → SiftState → List (Nat × Nat × Bool)
  | 0, _ => []
  | fuel + 1, s =>
    if s.p2 ≤ N then
      (s.p, (siftExtend wd N s).2, decide (¬ s.p > cbrt (siftExtend wd N s).2)) ::
        (match siftStep wd N printPrimes s with
         | none => []
         | some s1 => siftCalls wd N printPrimes fuel s1)
    else []

/-- The loop `for (k = klo; k < k1; k++) { scan word k with immediate
unmarking; baseon30 += p*8; }` of `Delete`, as a function of the store and
the base on entry. -/
def scanLoop (wd : Width) (p klo k1 : Nat) (st : Bitmap × Nat) : Bitmap × Nat :=
  forRange klo k1
    (fun k (st : Bitmap × Nat) =>
      (scanUnmark wd p st.2 (loadWord st.1 k) st.1, wrap wd (st.2 + p * 8)))
    st

/-- Staged regime with `kmax > kmid`: the store from which word `k > kmid` is
loaded, that is the store after the scan of the upper part of word `kmid` and
the iterations `kmid + 1, ..., k - 1` of the second scan loop. -/
def zone2StoreAt (wd : Width) (b : Bitmap) (p length k : Nat) : Bitmap :=
  let maxf := oddClamp wd (length / p)
  let maxfOnp := oddClamp wd (maxf / p)
  let kmid := maxfOnp / 240
  let bit64mid := bitIndex wd maxfOnp
  let base := (forRange (p / 240) kmid
    (fun k (st : List Nat × Nat) =>
      (scanPush wd p st.2 (loadWord b k) st.1, wrap wd (st.2 + p * 8)))
    ([], wrap wd (p / 240 * p * 8))).2
  let bitset := if bit64mid = 63 then 0 else loadWord b kmid &&& highMask bit64mid
  (scanLoop wd p (kmid + 1) k (scanUnmark wd p base bitset b, wrap wd (base + p * 8))).1

theorem and_one_shiftLeft_ne_zero (a s : Nat) : ((a &&& (1 <<< s)) != 0) = a.testBit s := by
  rw [Nat.one_shiftLeft]
  by_cases h : a.testBit s = true
  · rw [h]
    have : (a &&& 2 ^ s).testBit s = true := by simp [h, Nat.testBit_two_pow_self]
    have hne : a &&& 2 ^ s ≠ 0 := by
      intro h0; rw [h0] at this; simp at this
    simpa using hne
  · have hf : a.testBit s = false := by simpa using h
    rw [hf]
    have : a &&& 2 ^ s = 0 := by
      apply Nat.eq_of_testBit_eq
      intro i
      simp only [Nat.testBit_and, Nat.zero_testBit, Nat.testBit_two_pow]
      by_cases hi : s = i
      · subst hi; simp [hf]
      · simp [hi]
    simp [this]

theorem marked_eq_testBit (x : Nat) (b : Bitmap) :
    marked x b = (b (x / 30)).testBit ((x % 30) * 8 / 30) := by
  unfold marked
  exact and_one_shiftLeft_ne_zero _ _

@[simp] theorem setByte_same (b : Bitmap) (i v : Nat) : setByte b i v i = v := by
  simp [setByte]

theorem setByte_ne (b : Bitmap) (i v j : Nat) (h : j ≠ i) : setByte b i v j = b j := by
  simp [setByte, h]

/-- Value of the first `n` bytes of word `k`, little-endian. -/
theorem loadAux_spec (b : Bitmap) (k n : Nat) :
    (List.range n).foldl (fun acc j => acc + (b (8 * k + j) % 256) <<< (8 * j)) 0 < 2 ^ (8 * n) ∧
    ∀ r, r < 8 * n →
      ((List.range n).foldl (fun acc j => acc + (b (8 * k + j) % 256) <<< (8 * j)) 0).testBit r
        = (b (8 * k + r / 8)).testBit (r % 8) := by
  induction n with
  | zero => simp
  | succ n ih =>
    rw [List.range_succ, List.foldl_append]
    simp only [List.foldl_cons, List.foldl_nil]
    set v := (List.range n).foldl (fun acc j => acc + (b (8 * k + j) % 256) <<< (8 * j)) 0 with hv
    have hlt : b (8 * k + n) % 256 < 2 ^ 8 := Nat.mod_lt _ (by norm_num)
    have heq : v + (b (8 * k + n) % 256) <<< (8 * n) = 2 ^ (8 * n) * (b (8 * k + n) % 256) + v := by
      rw [Nat.shiftLeft_eq]; ring
    rw [heq]
    constructor
    · have h1 : 2 ^ (8 * (n + 1)) = 2 ^ (8 * n) * 2 ^ 8 := by rw [← pow_add, Nat.mul_succ]
      rw [h1]
      calc 2 ^ (8 * n) * (b (8 * k + n) % 256) + v
          < 2 ^ (8 * n) * (b (8 * k + n) % 256) + 2 ^ (8 * n) := by omega
        _ = 2 ^ (8 * n) * (b (8 * k + n) % 256 + 1) := by ring
        _ ≤ 2 ^ (8 * n) * 2 ^ 8 := Nat.mul_le_mul_left _ hlt
    · intro r hr
      rw [Nat.testBit_mul_pow_two_add _ ih.1]
      by_cases h : r < 8 * n
      · rw [if_pos h]; exact ih.2 r h
      · rw [if_neg h]
        have h1 : r / 8 = n := by omega
        have h2 : r % 8 = r - 8 * n := by omega
        have h256 : (256 : Nat) = 2 ^ 8 := by norm_num
        rw [h1, h2, h256, Nat.testBit_mod_two_pow]
        have : r - 8 * n < 8 := by omega
        simp [this]

theorem loadWord_lt (b : Bitmap) (k : Nat) : loadWord b k < 2 ^ 64 :=
  (loadAux_spec b k 8).1

theorem testBit_loadWord (b : Bitmap) (k r : Nat) (hr : r < 64) :
    (loadWord b k).testBit r = (b (8 * k + r / 8)).testBit (r % 8) :=
  (loadAux_spec b k 8).2 r hr

/-! ## The wheel codec -/

theorem bit64toval240_div (r : Nat) (hr : r < 64) : bit64toval240 r / 30 = r / 8 := by
  revert r; decide

theorem bit64toval240_bit (r : Nat) (hr : r < 64) :
    (bit64toval240 r % 30) * 8 / 30 = r % 8 := by
  revert r; decide

theorem bit64toval240_lt (r : Nat) (hr : r < 64) : bit64toval240 r < 240 := by
  revert r; decide

theorem coprime_mod_of_dvd {x m n : Nat} (h : Nat.Coprime x n) (hd : n ∣ m) :
    Nat.Coprime (x % m) n := by
  have := Nat.ModEq.gcd_eq ((Nat.mod_modEq x m).of_dvd hd)
  unfold Nat.Coprime at *
  rw [this]; exact h

theorem wordBit_bit64toval240 (k r : Nat) (hr : r < 64) :
    wordBit (240 * k + bit64toval240 r) = r := by
  have key : ∀ r < 64, wordBit (bit64toval240 r) = r := by decide
  have h1 := key r hr
  have e1 : (240 * k + bit64toval240 r) % 240 = bit64toval240 r % 240 := by omega
  have e2 : (240 * k + bit64toval240 r) % 30 = bit64toval240 r % 30 := by omega
  unfold wordBit at *
  rw [e1, e2]; exact h1

/-- Bit `r` of word `k` is the bit of the integer `240 * k + bit64toval240 r`. -/
theorem marked_word (b : Bitmap) (k r : Nat) (hr : r < 64) :
    marked (240 * k + bit64toval240 r) b = (loadWord b k).testBit r := by
  rw [marked_eq_testBit, testBit_loadWord b k r hr]
  have h1 := bit64toval240_div r hr
  have h2 := bit64toval240_bit r hr
  have h3 := bit64toval240_lt r hr
  have e1 : (240 * k + bit64toval240 r) / 30 = 8 * k + r / 8 := by omega
  have e2 : ((240 * k + bit64toval240 r) % 30) * 8 / 30 = r % 8 := by
    have : (240 * k + bit64toval240 r) % 30 = bit64toval240 r % 30 := by omega
    rw [this, h2]
  rw [e1, e2]

theorem ctzLoop_spec : ∀ (n x : Nat), 0 < x → x < 2 ^ n →
    x.testBit (ctzLoop n x) = true ∧ (∀ i, i < ctzLoop n x → x.testBit i = false) ∧
      ctzLoop n x < n := by
  intro n
  induction n with
  | zero => intro x h0 h1; simp at h1; omega
  | succ n ih =>
    intro x h0 h1
    unfold ctzLoop
    by_cases hodd : x % 2 = 1
    · rw [if_pos hodd]
      refine ⟨by simp [hodd], fun i hi => absurd hi (Nat.not_lt_zero i), Nat.succ_pos n⟩
    · rw [if_neg hodd]
      have hp : 2 ^ (n + 1) = 2 * 2 ^ n := by rw [pow_succ]; ring
      have h2 : 0 < x / 2 := by omega
      have h3 : x / 2 < 2 ^ n := by omega
      obtain ⟨a, b, c⟩ := ih (x / 2) h2 h3
      refine ⟨?_, ?_, by omega⟩
      · rw [Nat.add_comm, Nat.testBit_succ]; exact a
      · intro i hi
        cases i with
        | zero => simp [hodd]
        | succ j => rw [Nat.testBit_succ]; exact b j (by omega)

theorem lowbit_eq : ∀ (n x : Nat), 0 < x → x < 2 ^ n →
    x &&& (2 ^ n - x) = 2 ^ ctzLoop n x := by
  intro n
  induction n with
  | zero => intro x h0 h1; simp at h1; omega
  | succ n ih =>
    intro x h0 h1
    have hp : 2 ^ (n + 1) = 2 * 2 ^ n := by rw [pow_succ]; ring
    unfold ctzLoop
    by_cases hodd : x % 2 = 1
    · rw [if_pos hodd]
      apply Nat.eq_of_testBit_eq
      intro i
      cases i with
      | zero =>
        have hz : (2 ^ (n + 1) - x) % 2 = 1 := by omega
        simp [hodd, hz]
      | succ j =>
        rw [Nat.testBit_succ, Nat.and_div_two, Nat.testBit_and]
        have hz : (2 ^ (n + 1) - x) / 2 = 2 ^ n - (x / 2 + 1) := by omega
        have hy : x / 2 < 2 ^ n := by omega
        rw [hz, Nat.testBit_two_pow_sub_succ hy]
        have : (2 ^ 0).testBit (j + 1) = false := by
          rw [Nat.testBit_two_pow]; simp
        rw [this]
        cases (x / 2).testBit j <;> simp
    · rw [if_neg hodd]
      have h2 : 0 < x / 2 := by omega
      have h3 : x / 2 < 2 ^ n := by omega
      have hih := ih (x / 2) h2 h3
      have hz : (2 ^ (n + 1) - x) / 2 = 2 ^ n - x / 2 := by omega
      have hd : (x &&& (2 ^ (n + 1) - x)) / 2 = 2 ^ ctzLoop n (x / 2) := by
        rw [Nat.and_div_two, hz, hih]
      have hm : (x &&& (2 ^ (n + 1) - x)) % 2 = 0 := by
        have := @Nat.and_mod_two_eq_one x (2 ^ (n + 1) - x)
        have h4 : ¬ ((x &&& (2 ^ (n + 1) - x)) % 2 = 1) := by
          rw [this]; intro h; exact hodd h.1
        omega
      have hpow : 2 ^ (1 + ctzLoop n (x / 2)) = 2 * 2 ^ ctzLoop n (x / 2) := by
        rw [Nat.add_comm, pow_succ]; ring
      rw [hpow]
      omega

theorem whileBits_from {σ : Type} (body : Nat → σ → σ) :
    ∀ (fuel lo x : Nat) (s : σ), x < 2 ^ 64 → (∀ i, i < lo → x.testBit i = false) →
      64 ≤ fuel + lo →
      whileBits body fuel x s =
        ((List.range' lo (64 - lo)).filter (fun r => x.testBit r)).foldl
          (fun st r => body r st) s := by
  intro fuel
  induction fuel with
  | zero =>
    intro lo x s _ _ h
    have : 64 - lo = 0 := by omega
    simp [whileBits, this]
  | succ fuel ih =>
    intro lo x s hx hlo hf
    unfold whileBits
    by_cases h0 : x = 0
    · subst h0; simp
    · rw [if_neg h0]
      have hpos : 0 < x := Nat.pos_of_ne_zero h0
      obtain ⟨hset, hclr, hr64⟩ := ctzLoop_spec 64 x hpos hx
      have hmod : (2 ^ 64 - x) % 2 ^ 64 = 2 ^ 64 - x := Nat.mod_eq_of_lt (by omega)
      have ht : x &&& ((2 ^ 64 - x) % 2 ^ 64) = 2 ^ ctzll x := by
        rw [hmod]; exact lowbit_eq 64 x hpos hx
      simp only []
      rw [ht]
      have hr' : ctzLoop 64 x = ctzll x := rfl
      rw [hr'] at hset hclr hr64
      generalize ctzll x = r at hset hclr hr64 ⊢
      have hlor : lo ≤ r := by
        by_contra hc
        have := hlo r (by omega)
        rw [this] at hset; exact absurd hset (by simp)
      have hx' : x ^^^ 2 ^ r < 2 ^ 64 :=
        Nat.xor_lt_two_pow hx (Nat.pow_lt_pow_right (by norm_num) hr64)
      have hbits : ∀ i, (x ^^^ 2 ^ r).testBit i = (x.testBit i ^^ decide (r = i)) := by
        intro i; rw [Nat.testBit_xor, Nat.testBit_two_pow]
      have hlo' : ∀ i, i < r + 1 → (x ^^^ 2 ^ r).testBit i = false := by
        intro i hi
        rw [hbits]
        by_cases hir : r = i
        · subst hir; simp [hset]
        · have : i < r := by omega
          simp [hclr i this, hir]
      rw [ih (r + 1) (x ^^^ 2 ^ r) (body r s) hx' hlo' (by omega)]
      have hsplit : List.range' lo (64 - lo) =
          List.range' lo (r - lo) ++ (r :: List.range' (r + 1) (64 - (r + 1))) := by
        have h1 : 64 - lo = (64 - r) + (r - lo) := by omega
        have h2 : List.range' r (64 - r) = r :: List.range' (r + 1) (64 - (r + 1)) := by
          have h3 : 64 - r = (64 - (r + 1)) + 1 := by omega
          rw [h3, List.range'_succ]
        have h4 : lo + (r - lo) = r := by omega
        rw [h1, ← List.range'_append_1 lo (r - lo) (64 - r), h4, h2]
      rw [hsplit, List.filter_append]
      have hnil : (List.range' lo (r - lo)).filter (fun r => x.testBit r) = [] := by
        rw [List.filter_eq_nil_iff]
        intro a ha
        rw [List.mem_range'_1] at ha
        simp [hclr a (by omega)]
      rw [hnil, List.nil_append, List.filter_cons_of_pos (by simpa using hset)]
      simp only [List.foldl_cons]
      congr 1
      apply List.filter_congr
      intro a ha
      rw [List.mem_range'_1] at ha
      rw [hbits]
      have : ¬ r = a := by omega
      simp [this]

theorem whileBits_eq {σ : Type} (body : Nat → σ → σ) (x : Nat) (s : σ) (hx : x < 2 ^ 64) :
    whileBits body 64 x s = (setBits x).foldl (fun st r => body r st) s := by
  rw [whileBits_from body 64 0 x s hx (fun i hi => absurd hi (Nat.not_lt_zero i)) (by omega)]
  rw [setBits, List.range_eq_range']

theorem memcpy_zero (b : Bitmap) (dst src : Nat) : memcpy b dst src 0 = b := by
  funext i; simp [memcpy]

/-! ## Extend -/

theorem forRange_succ {σ : Type} (lo c : Nat) (body : Nat → σ → σ) (s : σ) :
    forRange lo (lo + (c + 1)) body s = body (lo + c) (forRange lo (lo + c) body s) := by
  unfold forRange
  have h1 : lo + (c + 1) - lo = c + 1 := by omega
  have h2 : lo + c - lo = c := by omega
  rw [h1, h2, List.range'_concat, List.foldl_append]
  simp

theorem forRange_empty {σ : Type} (lo hi : Nat) (h : hi ≤ lo) (body : Nat → σ → σ) (s : σ) :
    forRange lo hi body s = s := by
  unfold forRange
  have : hi - lo = 0 := by omega
  rw [this]; rfl

theorem memcpy_apply (b : Bitmap) (dst src n i : Nat) :
    memcpy b dst src n i = if dst ≤ i ∧ i < dst + n then b (src + (i - dst)) else b i := rfl

/-- State of the copy loop of `Extend` after `c` iterations. -/
theorem Extend_loop (b : Bitmap) (m c : Nat) (hm : 0 < m) :
    let st := forRange 1 (1 + c)
      (fun _ (st : Bitmap × Nat) => (memcpy st.1 (st.2 + m) 0 m, st.2 + m)) (b, 0)
    st.2 = c * m ∧ ∀ j, st.1 j = if j < (c + 1) * m then b (j % m) else b j := by
  induction c with
  | zero =>
    simp only [Nat.add_zero, forRange_empty 1 1 (le_refl 1), Nat.zero_mul, Nat.zero_add,
      Nat.one_mul, true_and]
    intro j
    by_cases h : j < m
    · rw [if_pos h, Nat.mod_eq_of_lt h]
    · rw [if_neg h]
  | succ c ih =>
    rw [forRange_succ]
    obtain ⟨h1, h2⟩ := ih
    rw [h1]
    refine ⟨by ring, ?_⟩
    intro j
    show memcpy _ (c * m + m) 0 m j = _
    rw [memcpy_apply]
    have e1 : (c + 1) * m = c * m + m := by ring
    have e2 : (c + 1 + 1) * m = c * m + m + m := by ring
    by_cases hj : c * m + m ≤ j ∧ j < c * m + m + m
    · rw [if_pos hj, e2, if_pos hj.2, h2, e1]
      have h3 : 0 + (j - (c * m + m)) < c * m + m := by omega
      rw [if_pos h3]
      congr 1
      have h4 : j = (j - (c * m + m)) + m * (c + 1) := by
        have : m * (c + 1) = c * m + m := by ring
        omega
      rw [Nat.zero_add]
      conv_rhs => rw [h4, Nat.add_mul_mod_self_left]
    · rw [if_neg hj, h2, e1, e2]
      by_cases h5 : j < c * m + m
      · have h6 : j < c * m + m + m := by omega
        rw [if_pos h5, if_pos h6]
      · have h6 : ¬ j < c * m + m + m := by omega
        rw [if_neg h5, if_neg h6]

theorem testBit_255_shiftRight (s j : Nat) :
    ((255 : Nat) >>> s).testBit j = decide (s + j < 8) := by
  have : (255 : Nat) = 2 ^ 8 - 1 := by norm_num
  rw [Nat.testBit_shiftRight, this, Nat.testBit_two_pow_sub_one]

/-- Bytes of the store after `Extend`, for a length that is a positive multiple
of 30. -/
theorem Extend_bytes (b : Bitmap) (m n : Nat) (hm : 0 < m) (hn : 30 * m ≤ n) :
    (Extend b (30 * m) n).2 = n ∧
    (∀ j, j < n / 30 → (Extend b (30 * m) n).1 j = b (j % m)) ∧
    (∀ j, n / 30 < j → (Extend b (30 * m) n).1 j = b j) ∧
    (n % 30 = 0 → (Extend b (30 * m) n).1 (n / 30) = b (n / 30)) ∧
    (0 < n % 30 → (Extend b (30 * m) n).1 (n / 30) =
      b (n / 30 % m) &&& (255 >>> (7 - mod30_to_bit8 (n % 30)).toNat)) := by
  have hL : 30 * m / 30 = m := by omega
  obtain ⟨c, hc⟩ : ∃ c, n / (30 * m) = 1 + c := by
    have : 0 < n / (30 * m) := Nat.div_pos hn (by omega)
    exact ⟨n / (30 * m) - 1, by omega⟩
  have hdm := Nat.div_add_mod n (30 * m)
  have hrem : n % (30 * m) < 30 * m := Nat.mod_lt _ (by omega)
  rw [hc] at hdm
  have hmc : 30 * m * (1 + c) = 30 * ((c + 1) * m) := by ring
  rw [hmc] at hdm
  generalize hr : n % (30 * m) = rem at hdm hrem
  generalize hM : (c + 1) * m = M at hdm
  have hn30 : n / 30 = M + rem / 30 := by omega
  have hn30' : n % 30 = rem % 30 := by omega
  have hloop := Extend_loop b m c hm
  obtain ⟨l1, l2⟩ := hloop
  rw [hM] at l2
  have hoff : c * m + m = M := by rw [← hM]; ring
  have hb1 : ∀ j, memcpy (forRange 1 (1 + c)
      (fun _ (st : Bitmap × Nat) => (memcpy st.1 (st.2 + m) 0 m, st.2 + m)) (b, 0)).1
      M 0 (rem / 30) j = if j < M + rem / 30 then b (j % m) else b j := by
    intro j
    rw [memcpy_apply]
    by_cases hj : M ≤ j ∧ j < M + rem / 30
    · rw [if_pos hj, if_pos hj.2, l2]
      have h3 : 0 + (j - M) < M := by
        have : m ≤ M := by rw [← hM]; nlinarith
        omega
      rw [if_pos h3, Nat.zero_add]
      congr 1
      have h4 : j = (j - M) + m * (c + 1) := by
        have : m * (c + 1) = M := by rw [← hM]; ring
        omega
      conv_rhs => rw [h4, Nat.add_mul_mod_self_left]
    · rw [if_neg hj, l2]
      by_cases h5 : j < M
      · have : j < M + rem / 30 := by omega
        rw [if_pos h5, if_pos this]
      · have : ¬ j < M + rem / 30 := by omega
        rw [if_neg h5, if_neg this]
  have hmod : (M + rem / 30) % m = rem / 30 := by
    have : M = m * (c + 1) := by rw [← hM]; ring
    rw [this, Nat.add_comm, Nat.add_mul_mod_self_left]
    exact Nat.mod_eq_of_lt (by omega)
  unfold Extend
  simp only [hL, hc, hr, l1, hoff]
  refine ⟨trivial, ?_, ?_, ?_, ?_⟩
  · intro j hj
    rw [hn30] at hj
    split
    · rw [setByte_ne _ _ _ _ (by omega), hb1, if_pos hj]
    · rw [hb1, if_pos hj]
  · intro j hj
    rw [hn30] at hj
    have hj' : ¬ j < M + rem / 30 := by omega
    split
    · rw [setByte_ne _ _ _ _ (by omega), hb1, if_neg hj']
    · rw [hb1, if_neg hj']
  · intro h0
    rw [hn30'] at h0
    have : ¬ (rem % 30 > 0) := by omega
    rw [if_neg this, hb1, hn30, if_neg (by omega)]
  · intro h0
    rw [hn30'] at h0 ⊢
    rw [if_pos h0, hn30, setByte_same, hb1, hmod]
    have hlt : rem / 30 < M + rem / 30 := by
      have : m ≤ M := by rw [← hM]; nlinarith
      omega
    rw [if_pos hlt, Nat.mod_eq_of_lt (by omega)]

theorem mask_table : ∀ a < 30, ∀ c < 30, Nat.Coprime a 30 → 0 < c →
    decide ((7 - mod30_to_bit8 c).toNat + a * 8 / 30 < 8) = decide (a ≤ c) := by
  decide

/-- Marked integers after `Extend`, for a length that is a positive multiple of
30: periodic copy up to `n`, cleared tail of the last partial byte, and no
change beyond the byte of `n`. -/
theorem Extend_marked (b : Bitmap) (length n : Nat) (h30 : 30 ∣ length) (hpos : 0 < length)
    (hn : length ≤ n) :
    (∀ x, x ≤ n → Nat.Coprime x 30 →
      marked x (Extend b length n).1 = marked (x % length) b) ∧
    (∀ x, n < x → x / 30 = n / 30 → n % 30 ≠ 0 → Nat.Coprime x 30 →
      marked x (Extend b length n).1 = false) ∧
    (∀ x, n / 30 < x / 30 → marked x (Extend b length n).1 = marked x b) ∧
    (∀ x, n % 30 = 0 → x / 30 = n / 30 → marked x (Extend b length n).1 = marked x b) := by
  obtain ⟨m, rfl⟩ := h30
  have hm : 0 < m := by omega
  obtain ⟨-, hlt, hgt, heq0, heq⟩ := Extend_bytes b m n hm hn
  have hcop : ∀ x, Nat.Coprime x 30 → Nat.Coprime (x % 30) 30 := fun x hx =>
    coprime_mod_of_dvd hx (dvd_refl 30)
  refine ⟨?_, ?_, ?_, ?_⟩
  · intro x hxn hx
    rw [marked_eq_testBit, marked_eq_testBit, Nat.mod_mul_right_div_self, Nat.mod_mul_right_mod]
    have hle : x / 30 ≤ n / 30 := Nat.div_le_div_right hxn
    rcases Nat.lt_or_eq_of_le hle with h | h
    · rw [hlt _ h]
    · have hx30 : 0 < x % 30 := by
        rcases Nat.eq_zero_or_pos (x % 30) with h0 | h0
        · have h1 := hcop x hx
          rw [h0] at h1
          exact absurd h1 (by decide)
        · exact h0
      have hxn30 : x % 30 ≤ n % 30 := by omega
      rw [h, heq (by omega), Nat.testBit_and, testBit_255_shiftRight,
        mask_table (x % 30) (Nat.mod_lt _ (by norm_num)) (n % 30) (Nat.mod_lt _ (by norm_num))
          (hcop x hx) (by omega)]
      simp [hxn30]
  · intro x hxn hb hn0 hx
    rw [marked_eq_testBit, hb, heq (by omega), Nat.testBit_and, testBit_255_shiftRight,
      mask_table (x % 30) (Nat.mod_lt _ (by norm_num)) (n % 30) (Nat.mod_lt _ (by norm_num))
        (hcop x hx) (by omega)]
    have : ¬ x % 30 ≤ n % 30 := by omega
    simp [this]
  · intro x hx
    rw [marked_eq_testBit, marked_eq_testBit, hgt _ hx]
  · intro x h0 hx
    rw [marked_eq_testBit, marked_eq_testBit, hx, heq0 h0]

/-! ## Arithmetic helpers of Delete -/

theorem cbrtLoop_spec : ∀ (fuel n r : Nat), r ^ 3 ≤ n → n < r + fuel + 1 →
    cbrtLoop fuel n r ^ 3 ≤ n ∧ n < (cbrtLoop fuel n r + 1) ^ 3 := by
  intro fuel
  induction fuel with
  | zero =>
    intro n r h1 h2
    refine ⟨h1, ?_⟩
    show n < (r + 1) ^ 3
    have : r + 1 ≤ (r + 1) ^ 3 := Nat.le_self_pow (by norm_num) _
    omega
  | succ fuel ih =>
    intro n r h1 h2
    unfold cbrtLoop
    by_cases h : (r + 1) ^ 3 ≤ n
    · rw [if_pos h]; exact ih n (r + 1) h (by omega)
    · rw [if_neg h]; exact ⟨h1, by omega⟩

theorem cbrt_spec (n : Nat) : cbrt n ^ 3 ≤ n ∧ n < (cbrt n + 1) ^ 3 :=
  cbrtLoop_spec n n 0 (by simp) (by omega)

theorem cube_le_of_le_cbrt {p n : Nat} (h : ¬ p > cbrt n) : p ^ 3 ≤ n := by
  have h1 := (cbrt_spec n).1
  have h2 : p ^ 3 ≤ cbrt n ^ 3 := Nat.pow_le_pow_left (by omega) 3
  omega

theorem two_pow_bits_pos (wd : Width) : 0 < 2 ^ wd.bits := Nat.pow_pos (by norm_num)

theorem two_pow_32_le (wd : Width) : 2 ^ 32 ≤ 2 ^ wd.bits := by
  cases wd <;> simp [Width.bits]

theorem oddClamp_of_pos (wd : Width) (x : Nat) (h1 : 1 ≤ x) (h2 : x ≤ 2 ^ wd.bits) :
    oddClamp wd x = if x % 2 = 0 then x - 1 else x := by
  unfold oddClamp wrap
  by_cases h : x % 2 = 0
  · rw [if_pos h, if_pos h]
    have : x + 2 ^ wd.bits - 1 = (x - 1) + 2 ^ wd.bits := by omega
    rw [this, Nat.add_mod_right]
    exact Nat.mod_eq_of_lt (by omega)
  · rw [if_neg h, if_neg h]

theorem oddClamp_odd (wd : Width) (x : Nat) : oddClamp wd x % 2 = 1 := by
  unfold oddClamp wrap
  by_cases h : x % 2 = 0
  · rw [if_pos h]
    have h2 : 2 ∣ 2 ^ wd.bits := by
      cases wd <;> simp [Width.bits] <;> norm_num
    have h3 : (x + 2 ^ wd.bits - 1) % 2 ^ wd.bits % 2 = (x + 2 ^ wd.bits - 1) % 2 :=
      Nat.mod_mod_of_dvd _ h2
    rw [h3]
    have := two_pow_bits_pos wd
    obtain ⟨c, hc⟩ := h2
    omega
  · rw [if_neg h]; omega

set_option maxRecDepth 100000 in
theorem bitIndex_table : ∀ y < 240, y % 2 = 1 →
    ((y / 30 * 8 : Nat) : Int) + mod30_to_bit8 (y % 30) = ((lastBit y : Nat) : Int) ∧
      lastBit y < 64 := by
  decide

theorem bitIndex_eq (wd : Width) (x : Nat) (hx : x % 2 = 1) :
    bitIndex wd x = lastBit x ∧ lastBit x < 64 := by
  have h1 : x % 240 < 240 := Nat.mod_lt _ (by norm_num)
  have h2 : x % 240 % 2 = 1 := by omega
  obtain ⟨h3, h4⟩ := bitIndex_table (x % 240) h1 h2
  have h5 : lastBit (x % 240) = lastBit x := by
    unfold lastBit; rw [Nat.mod_mod]
  rw [h5] at h3 h4
  refine ⟨?_, h4⟩
  unfold bitIndex
  rw [h3]
  have h6 : ((lastBit x : Nat) : Int) % 2 ^ wd.bits = (lastBit x : Nat) := by
    apply Int.emod_eq_of_lt (by positivity)
    have := two_pow_32_le wd
    have h7 : (lastBit x : Int) < 64 := by exact_mod_cast h4
    have h8 : ((2 : Int) ^ wd.bits) = ((2 ^ wd.bits : Nat) : Int) := by push_cast; rfl
    rw [h8]
    have h9 : (64 : Int) ≤ ((2 ^ wd.bits : Nat) : Int) := by
      have : 64 ≤ 2 ^ wd.bits := by omega
      exact_mod_cast this
    omega
  rw [h6]; simp

theorem testBit_lowMask (bit64 r : Nat) (h : bit64 ≤ 63) :
    (lowMask bit64).testBit r = decide (r ≤ bit64) := by
  unfold lowMask
  rw [Nat.testBit_shiftRight, Nat.testBit_two_pow_sub_one]
  by_cases h1 : r ≤ bit64
  · have : 63 - bit64 + r < 64 := by omega
    simp [h1, this]
  · have : ¬ 63 - bit64 + r < 64 := by omega
    simp [h1, this]

theorem unmarkAll_append (cs ds : List Nat) (b : Bitmap) :
    unmarkAll (cs ++ ds) b = unmarkAll ds (unmarkAll cs b) := by
  unfold unmarkAll; rw [List.foldl_append]

theorem Delete_staged (wd : Width) (b : Bitmap) (p length : Nat) (h : ¬ p > cbrt length) :
    Delete wd b p length =
      (let maxf := oddClamp wd (length / p)
       let kmin := p / 240
       let kmax := maxf / 240
       let bit64 := bitIndex wd maxf
       let maxfOnp := oddClamp wd (maxf / p)
       let kmid := maxfOnp / 240
       let bit64mid := bitIndex wd maxfOnp
       let st := forRange kmin kmid
         (fun k (st : List Nat × Nat) =>
           (scanPush wd p st.2 (loadWord b k) st.1, wrap wd (st.2 + p * 8)))
         ([], wrap wd (kmin * p * 8))
       let cstack := scanPush wd p st.2 (loadWord b kmid &&& lowMask bit64mid) st.1
       let bitset := if bit64mid = 63 then 0 else loadWord b kmid &&& highMask bit64mid
       let res : Bitmap × Nat × Nat :=
         if kmax > kmid then
           let b1 := scanUnmark wd p st.2 bitset b
           let st2 := forRange (kmid + 1) kmax
             (fun k (st : Bitmap × Nat) =>
               (scanUnmark wd p st.2 (loadWord st.1 k) st.1, wrap wd (st.2 + p * 8)))
             (b1, wrap wd (st.2 + p * 8))
           (st2.1, st2.2, loadWord st2.1 kmax &&& lowMask bit64)
         else
           (b, st.2, bitset &&& (loadWord b kmid &&& lowMask bit64))
       unmark p (cstack.foldl (replay wd) (scanUnmark wd p res.2.1 res.2.2 res.1))) := by
  unfold Delete
  simp only [if_neg h]

/-! ## Delete: ranges -/

theorem maxf_facts (wd : Width) (p length : Nat) (hp : 0 < p) (hle : p ≤ length)
    (hlt : length < 2 ^ wd.bits) :
    oddClamp wd (length / p) % 2 = 1 ∧ oddClamp wd (length / p) ≤ length / p ∧
    length / p ≤ oddClamp wd (length / p) + 1 ∧ 1 ≤ oddClamp wd (length / p) ∧
    p * oddClamp wd (length / p) ≤ length := by
  have h1 : 1 ≤ length / p := Nat.div_pos hle hp
  have h2 : length / p ≤ length := Nat.div_le_self _ _
  have h3 := oddClamp_of_pos wd (length / p) h1 (by omega)
  have h4 := oddClamp_odd wd (length / p)
  have h5 : oddClamp wd (length / p) ≤ length / p := by rw [h3]; split <;> omega
  refine ⟨h4, h5, by rw [h3]; split <;> omega, by omega, ?_⟩
  calc p * oddClamp wd (length / p) ≤ p * (length / p) := Nat.mul_le_mul_left _ h5
    _ ≤ length := Nat.mul_div_le _ _

theorem and_lt_word (b : Bitmap) (k m : Nat) : loadWord b k &&& m < 2 ^ 64 :=
  lt_of_le_of_lt Nat.and_le_left (loadWord_lt b k)

theorem Delete_staged_zone2 (wd : Width) (b : Bitmap) (p length : Nat)
    (h : ¬ p > cbrt length) :
    Delete wd b p length =
      unmark p
        ((scanPush wd p
            (forRange (p / 240) (oddClamp wd (oddClamp wd (length / p) / p) / 240)
              (fun k (st : List Nat × Nat) =>
                (scanPush wd p st.2 (loadWord b k) st.1, wrap wd (st.2 + p * 8)))
              ([], wrap wd (p / 240 * p * 8))).2
            (loadWord b (oddClamp wd (oddClamp wd (length / p) / p) / 240)
              &&& lowMask (bitIndex wd (oddClamp wd (oddClamp wd (length / p) / p))))
            (forRange (p / 240) (oddClamp wd (oddClamp wd (length / p) / p) / 240)
              (fun k (st : List Nat × Nat) =>
                (scanPush wd p st.2 (loadWord b k) st.1, wrap wd (st.2 + p * 8)))
              ([], wrap wd (p / 240 * p * 8))).1).foldl (replay wd)
          (zone2 wd p b (oddClamp wd (length / p)) (oddClamp wd (oddClamp wd (length / p) / p))
            (forRange (p / 240) (oddClamp wd (oddClamp wd (length / p) / p) / 240)
              (fun k (st : List Nat × Nat) =>
                (scanPush wd p st.2 (loadWord b k) st.1, wrap wd (st.2 + p * 8)))
              ([], wrap wd (p / 240 * p * 8))).2)) := by
  rw [Delete_staged wd b p length h]
  rfl

theorem scanPush_length (wd : Width) (p base bitset : Nat) (cstack : List Nat)
    (hb : bitset < 2 ^ 64) :
    (scanPush wd p base bitset cstack).length = cstack.length + (setBits bitset).length := by
  unfold scanPush
  rw [whileBits_eq _ _ _ hb]
  generalize setBits bitset = l
  induction l generalizing cstack with
  | nil => simp
  | cons r l ih =>
    rw [List.foldl_cons, ih]
    simp
    omega

theorem setBits_length_le (x : Nat) : (setBits x).length ≤ 64 := by
  unfold setBits
  have := List.length_filter_le (fun r => x.testBit r) (List.range 64)
  simpa using this

theorem range_filter_le : ∀ m, m < 64 →
    ((List.range 64).filter (fun r => decide (r ≤ m))).length = m + 1 := by
  decide

theorem setBits_lowMask_length (x m : Nat) (hm : m ≤ 63) :
    (setBits (x &&& lowMask m)).length ≤ m + 1 := by
  unfold setBits
  rw [← range_filter_le m (by omega), ← List.countP_eq_length_filter,
    ← List.countP_eq_length_filter]
  apply List.countP_mono_left
  intro r _ h
  rw [Nat.testBit_and, testBit_lowMask _ _ hm] at h
  simp only [Bool.and_eq_true, decide_eq_true_eq] at h
  simpa using h.2

theorem pushLoop_length (wd : Width) (p : Nat) (b : Bitmap) (klo : Nat) :
    ∀ (c : Nat) (st : List Nat × Nat),
      (forRange klo (klo + c)
        (fun k (st : List Nat × Nat) =>
          (scanPush wd p st.2 (loadWord b k) st.1, wrap wd (st.2 + p * 8))) st).1.length
        ≤ st.1.length + 64 * c := by
  intro c
  induction c with
  | zero => intro st; rw [forRange_empty _ _ (by omega)]; omega
  | succ c ih =>
    intro st
    rw [forRange_succ]
    have h1 := ih st
    simp only []
    rw [scanPush_length _ _ _ _ _ (loadWord_lt b _)]
    have h2 := setBits_length_le (loadWord b (klo + c))
    omega

set_option maxRecDepth 100000 in
theorem lastBit_le (y : Nat) (hy : y % 2 = 1) : 64 * (y / 240) + lastBit y + 1 ≤ 8 * (y / 30 + 1) := by
  have h1 : y % 240 < 240 := Nat.mod_lt _ (by norm_num)
  have key : ∀ z < 240, z % 2 = 1 → lastBit z + 1 ≤ 8 * (z / 30 + 1) := by decide
  have h2 := key (y % 240) h1 (by omega)
  have h5 : lastBit (y % 240) = lastBit y := by
    unfold lastBit; rw [Nat.mod_mod]
  rw [h5] at h2
  omega

theorem DeleteStack_length (wd : Width) (b : Bitmap) (p length : Nat) (hp : 7 ≤ p)
    (hlt : length < 2 ^ wd.bits) (h : ¬ p > cbrt length) :
    (DeleteStack wd b p length).length
      ≤ 8 * (oddClamp wd (oddClamp wd (length / p) / p) / 30 + 1) ∧
    oddClamp wd (oddClamp wd (length / p) / p) + 1 ≤ oddClamp wd (length / p) ∧
    oddClamp wd (length / p) ≤ length / p := by
  have h3 : p ^ 3 ≤ length := cube_le_of_le_cbrt h
  have hp0 : 0 < p := by omega
  have hpl : p ≤ length := by
    calc p = p ^ 1 := (pow_one p).symm
      _ ≤ p ^ 3 := Nat.pow_le_pow_right hp0 (by norm_num)
      _ ≤ length := h3
  obtain ⟨m1, m2, m3, m4, m5⟩ := maxf_facts wd p length hp0 hpl hlt
  have hpp : p * p ≤ length / p := by
    rw [Nat.le_div_iff_mul_le hp0]
    calc p * p * p = p ^ 3 := by ring
      _ ≤ length := h3
  have h49 : 7 * 7 ≤ p * p := Nat.mul_le_mul hp hp
  generalize hmaxf : oddClamp wd (length / p) = maxf at *
  have h7p : 7 * p ≤ p * p := Nat.mul_le_mul_right p hp
  have hq1 : 6 ≤ maxf / p := by
    rw [Nat.le_div_iff_mul_le hp0]
    omega
  have hq2 : maxf / p ≤ maxf := Nat.div_le_self _ _
  have hlen : length / p ≤ length := Nat.div_le_self _ _
  have hq3 : maxf / p * 7 ≤ maxf := by
    calc maxf / p * 7 ≤ maxf / p * p := Nat.mul_le_mul_left _ hp
      _ ≤ maxf := Nat.div_mul_le_self _ _
  have h4 := oddClamp_of_pos wd (maxf / p) (by omega) (by omega)
  have h5 := oddClamp_odd wd (maxf / p)
  have h6 : oddClamp wd (maxf / p) ≤ maxf / p := by rw [h4]; split <;> omega
  refine ⟨?_, by omega, m2⟩
  unfold DeleteStack
  simp only []
  rw [hmaxf]
  generalize oddClamp wd (maxf / p) = mid at *
  obtain ⟨e1, e2⟩ := bitIndex_eq wd mid h5
  rw [e1, scanPush_length _ _ _ _ _ (and_lt_word _ _ _)]
  have hl := setBits_lowMask_length (loadWord b (mid / 240)) (lastBit mid) (by omega)
  have hb := lastBit_le mid h5
  by_cases hk : p / 240 ≤ mid / 240
  · obtain ⟨c, hc⟩ : ∃ c, mid / 240 = p / 240 + c := ⟨mid / 240 - p / 240, by omega⟩
    have hloop := pushLoop_length wd p b (p / 240) c ([], wrap wd (p / 240 * p * 8))
    rw [← hc] at hloop
    simp only [List.length_nil] at hloop
    omega
  · rw [forRange_empty _ _ (by omega)]
    simp only [List.length_nil]
    omega

/-! ## The calls of Delete made by Sift -/

theorem Delete_staged_at (wd : Width) (b : Bitmap) (p length : Nat)
    (h : ¬ p > cbrt length)
    (hk : oddClamp wd (length / p) / 240 > oddClamp wd (oddClamp wd (length / p) / p) / 240) :
    Delete wd b p length =
      unmark p ((DeleteStack wd b p length).foldl (replay wd)
        (scanUnmark wd p
          (scanLoop wd p (oddClamp wd (oddClamp wd (length / p) / p) / 240 + 1)
            (oddClamp wd (length / p) / 240)
            (scanUnmark wd p
              (forRange (p / 240) (oddClamp wd (oddClamp wd (length / p) / p) / 240)
                (fun k (st : List Nat × Nat) =>
                  (scanPush wd p st.2 (loadWord b k) st.1, wrap wd (st.2 + p * 8)))
                ([], wrap wd (p / 240 * p * 8))).2
              (if bitIndex wd (oddClamp wd (oddClamp wd (length / p) / p)) = 63 then 0
                else loadWord b (oddClamp wd (oddClamp wd (length / p) / p) / 240)
                  &&& highMask (bitIndex wd (oddClamp wd (oddClamp wd (length / p) / p))))
              b,
             wrap wd ((forRange (p / 240) (oddClamp wd (oddClamp wd (length / p) / p) / 240)
                (fun k (st : List Nat × Nat) =>
                  (scanPush wd p st.2 (loadWord b k) st.1, wrap wd (st.2 + p * 8)))
                ([], wrap wd (p / 240 * p * 8))).2 + p * 8))).2
          (loadWord (zone2StoreAt wd b p length (oddClamp wd (length / p) / 240))
              (oddClamp wd (length / p) / 240)
            &&& lowMask (bitIndex wd (oddClamp wd (length / p))))
          (zone2StoreAt wd b p length (oddClamp wd (length / p) / 240)))) := by
  rw [Delete_staged_zone2 wd b p length h]
  unfold zone2
  simp only []
  rw [if_pos hk]
  rfl

/-! ## Delete with a record of its writes -/

/-- C9: `Extend(bitmap, length, length)` with `length >= 1` leaves every byte of
the store unchanged and returns the same value of `length`. -/
theorem Extend_idempotent (b : Bitmap) (length : Nat) (h : 1 ≤ length) :
    (Extend b length length).2 = length ∧ ∀ i, (Extend b length length).1 i = b i := by
  have h1 : length / length = 1 := Nat.div_self h
  have h2 : length % length = 0 := Nat.mod_self length
  simp [Extend, forRange, h1, h2, memcpy_zero]

theorem Extend_idempotent_witness :
    (Extend (setByte calloc 0 255) 30 30).2 = 30 ∧
      ∀ i, (Extend (setByte calloc 0 255) 30 30).1 i = setByte calloc 0 255 i :=
  Extend_idempotent (setByte calloc 0 255) 30 (by decide)

set_option maxRecDepth 1000000 in
/-- C8: for `2 <= N <= 48` the main loop body never runs and `Sift(N, false)`
returns the number of primes up to `N`: the early-return count `1, 2, 2, 3, 3`
for `N = 2..6`, and for `7 <= N <= 48` three plus the number of integers in
`(1, N]` coprime to 30 (so the integer 1 is not counted); in particular
`N = 2, 4, 29, 30` give `1, 2, 10, 10`. -/
theorem Sift_small_N (wd : Width) (N : Nat) (h2 : 2 ≤ N) (h48 : N ≤ 48) :
    Sift wd N false = some (Nat.primeCounting N, []) ∧
    (N < 7 → Sift wd N false =
      some (1 + (if 3 ≤ N then 1 else 0) + (if 5 ≤ N then 1 else 0), [])) ∧
    (7 ≤ N → Sift wd N false =
      some (3 + ((Finset.Ioc 1 N).filter (fun x => Nat.Coprime x 30)).card, [])) ∧
    Sift wd 2 false = some (1, []) ∧ Sift wd 3 false = some (2, []) ∧
    Sift wd 4 false = some (2, []) ∧ Sift wd 5 false = some (3, []) ∧
    Sift wd 6 false = some (3, []) ∧ Sift wd 29 false = some (10, []) ∧
    Sift wd 30 false = some (10, []) := by
  interval_cases N <;> cases wd <;> decide!

theorem Sift_small_N_witness :
    2 ≤ 29 ∧ 29 ≤ 48 ∧ Sift Width.w32 29 false = some (Nat.primeCounting 29, []) :=
  ⟨by decide, by decide, (Sift_small_N Width.w32 29 (by decide) (by decide)).1⟩

/-- C4: for every store, every `length` that is a positive multiple of 30 and
every `n >= length`, after `Extend(bitmap, length, n)` the new length is `n`,
every `x` in `[1, n]` coprime to 30 is marked iff `x mod length` was marked
before the call, and in the last partial byte (present when `n mod 30 != 0`)
no bit of an integer greater than `n` is set. -/
theorem Extend_periodic (b : Bitmap) (length n : Nat) (h30 : 30 ∣ length) (hpos : 0 < length)
    (hn : length ≤ n) :
    (Extend b length n).2 = n ∧
    (∀ x, 1 ≤ x → x ≤ n → Nat.Coprime x 30 →
      marked x (Extend b length n).1 = marked (x % length) b) ∧
    (∀ x, n < x → x / 30 = n / 30 → n % 30 ≠ 0 → Nat.Coprime x 30 →
      marked x (Extend b length n).1 = false) :=
  ⟨rfl, fun x _ hx hc => (Extend_marked b length n h30 hpos hn).1 x hx hc,
    (Extend_marked b length n h30 hpos hn).2.1⟩

theorem Extend_periodic_witness :
    30 ∣ 30 ∧ 0 < 30 ∧ 30 ≤ 49 ∧ (Extend (setByte calloc 0 255) 30 49).2 = 49 ∧
      marked 37 (Extend (setByte calloc 0 255) 30 49).1
        = marked (37 % 30) (setByte calloc 0 255) :=
  ⟨by decide, by decide, by decide,
    (Extend_periodic (setByte calloc 0 255) 30 49 (by decide) (by decide) (by decide)).1,
    (Extend_periodic (setByte calloc 0 255) 30 49 (by decide) (by decide) (by decide)).2.1
      37 (by decide) (by decide) (by decide)⟩

/-- C18: the tables of the wheel codec agree with each other and with the
macros: every entry of `bit64toval240` is coprime to 30 and lies in `[1, 240)`,
the table is strictly increasing, `8 * (v / 30) + mod30_to_bit8[v % 30]` gives
back the index of `v`, the bit `(x * 8) / 30` of the macros is
`mod30_to_bit8[x]` for the eight residues, and `marked` on the integer
`240 * k + bit64toval240[r]` reads bit `r` of word `k`. -/
theorem codec_consistent :
    (∀ r, r < 64 → Nat.Coprime (bit64toval240 r) 30 ∧ 1 ≤ bit64toval240 r ∧
      bit64toval240 r < 240 ∧
      ((8 * (bit64toval240 r / 30) : Nat) : Int) + mod30_to_bit8 (bit64toval240 r % 30)
        = ((r : Nat) : Int)) ∧
    (∀ r, r < 63 → bit64toval240 r < bit64toval240 (r + 1)) ∧
    (∀ x, x ∈ [1, 7, 11, 13, 17, 19, 23, 29] →
      (((x * 8 / 30 : Nat) : Int) = mod30_to_bit8 x)) ∧
    (∀ (b : Bitmap) (k r : Nat), r < 64 →
      marked (240 * k + bit64toval240 r) b = (loadWord b k).testBit r) := by
  refine ⟨by decide, by decide, by decide, ?_⟩
  intro b k r hr
  exact marked_word b k r hr

/-- C18 at bit 13 of word 2, the integer 529. -/
theorem codec_consistent_witness :
    Nat.Coprime (bit64toval240 13) 30 ∧
    marked (240 * 2 + bit64toval240 13) (setByte calloc 17 32)
      = (loadWord (setByte calloc 17 32) 2).testBit 13 :=
  ⟨(codec_consistent.1 13 (by decide)).1, codec_consistent.2.2.2 _ 2 13 (by decide)⟩

/-- C12 fails at `N = 240`: `Sift` allocates 16 bytes where the data model
gives 8. -/
theorem bitmapsize_differs : bitmapsize 240 = 16 ∧ storeSizeSpec 240 = 8 := by decide

/-- C12, amended: the allocation is `N / 30 + 1` bytes rounded up to a multiple
of 8; it is never below the size of the data model, equals it unless 240
divides `N`, and is 8 bytes larger when 240 divides `N`. -/
theorem bitmapsize_spec (N : Nat) :
    bitmapsize N = (N / 240 + 1) * 8 ∧ N / 30 + 1 ≤ bitmapsize N ∧
    bitmapsize N < N / 30 + 1 + 8 ∧
    storeSizeSpec N ≤ bitmapsize N ∧
    (N % 240 ≠ 0 → bitmapsize N = storeSizeSpec N) ∧
    (N % 240 = 0 → bitmapsize N = storeSizeSpec N + 8) := by
  unfold bitmapsize storeSizeSpec
  refine ⟨by omega, by omega, by omega, by omega, ?_, ?_⟩ <;> intro h <;> omega

/-- C12, amended, at `N = 241` and `N = 480`. -/
theorem bitmapsize_spec_witness :
    bitmapsize 241 = storeSizeSpec 241 ∧ bitmapsize 480 = storeSizeSpec 480 + 8 :=
  ⟨(bitmapsize_spec 241).2.2.2.2.1 (by decide), (bitmapsize_spec 480).2.2.2.2.2 (by decide)⟩

/-- C17: in the staged regime of `Delete` (`p <= cbrt(length)`), for every
store and every `p >= 7`, the stack holds at most `((maxf-1)/30+1)*8` entries
when the push loops are over (entries are only added, so this bounds the stack
at every moment), and this capacity is at most `8 * ceil((length-1)/30)`. -/
theorem DeleteStack_capacity (wd : Width) (b : Bitmap) (p length : Nat) (hp : 7 ≤ p)
    (hlt : length < 2 ^ wd.bits) (h : ¬ p > cbrt length) :
    (DeleteStack wd b p length).length ≤ stackCapacity wd p length ∧
    stackCapacity wd p length = ((oddClamp wd (length / p) - 1) / 30 + 1) * 8 ∧
    stackCapacity wd p length ≤ 8 * ((length - 1 + 29) / 30) ∧
    Delete wd b p length =
      unmark p ((DeleteStack wd b p length).foldl (replay wd)
        (zone2 wd p b (oddClamp wd (length / p)) (oddClamp wd (oddClamp wd (length / p) / p))
          (forRange (p / 240) (oddClamp wd (oddClamp wd (length / p) / p) / 240)
            (fun k (st : List Nat × Nat) =>
              (scanPush wd p st.2 (loadWord b k) st.1, wrap wd (st.2 + p * 8)))
            ([], wrap wd (p / 240 * p * 8))).2)) := by
  obtain ⟨h1, h2, h3⟩ := DeleteStack_length wd b p length hp hlt h
  have hl : length / p * 7 ≤ length := by
    calc length / p * 7 ≤ length / p * p := Nat.mul_le_mul_left _ hp
      _ ≤ length := Nat.div_mul_le_self _ _
  refine ⟨?_, rfl, ?_, ?_⟩
  · unfold stackCapacity
    have : oddClamp wd (oddClamp wd (length / p) / p) / 30 ≤ (oddClamp wd (length / p) - 1) / 30 :=
      Nat.div_le_div_right (by omega)
    omega
  · unfold stackCapacity
    omega
  · rw [Delete_staged_zone2 wd b p length h]
    rfl

set_option maxRecDepth 1000000 in
/-- C17 for `p = 7`, `length = 2310` on the store with every bit of the first
ten bytes set. -/
theorem DeleteStack_capacity_witness :
    (DeleteStack Width.w32 (fun i => if i < 10 then 255 else 0) 7 2310).length
      ≤ stackCapacity Width.w32 7 2310 :=
  (DeleteStack_capacity Width.w32 (fun i => if i < 10 then 255 else 0) 7 2310 (by decide)
    (by decide) (by decide!)).1

set_option maxRecDepth 1000000 in
/-- C15 fails: in the run `Sift(10000, false)` the call of `Delete` for `p = 7`
is made with `length = 210`, whose cube root is 5, and takes the immediate
regime. -/
theorem regime_of_7_is_immediate :
    (siftCalls Width.w32 10000 false 10000 (siftInit 10000 false)).head? = some (7, 210, false) ∧
    (siftCalls Width.w64 10000 false 10000 (siftInit 10000 false)).head? = some (7, 210, false) ∧
    cbrt 210 = 5 := by
  decide!

set_option maxRecDepth 1000000 in
/-- C15, amended: in the run `Sift(10000, false)` the call of `Delete` for
`p = 7` has `length = 210` and takes the immediate regime; the calls for
`p = 11` (`length = 2310`) and for `p = 13, 17, 19` (`length = 10000`, cube
root 21) take the staged regime; the calls for the primes 23 to 97 take the
immediate regime. -/
theorem regimes_of_10000 (wd : Width) :
    siftCalls wd 10000 false 10000 (siftInit 10000 false) =
      [(7, 210, false), (11, 2310, true), (13, 10000, true), (17, 10000, true),
       (19, 10000, true), (23, 10000, false), (29, 10000, false), (31, 10000, false),
       (37, 10000, false), (41, 10000, false), (43, 10000, false), (47, 10000, false),
       (53, 10000, false), (59, 10000, false), (61, 10000, false), (67, 10000, false),
       (71, 10000, false), (73, 10000, false), (79, 10000, false), (83, 10000, false),
       (89, 10000, false), (97, 10000, false)] ∧
    cbrt 210 = 5 ∧ cbrt 2310 = 13 ∧ cbrt 10000 = 21 := by
  cases wd <;> decide!

end WheelSieve
